import Mathlib

/-!
Verification of the klipper-docs-mcp documentation server.

This file gives a shallow embedding of the path-safety, file-reading and
search logic of the repository and proves the spec's testable properties
against it.  Paths are modelled as lists of POSIX components; file contents
as lists of characters (Python string slicing and regular-expression
scanning are embedded as executable functions over those lists).
-/

set_option maxRecDepth 10000

/-! ## Path model

A POSIX path supplied by a caller, as `pathlib` sees it: an `absolute` flag
and a list of components.  The document root is a canonical absolute path
given as its list of components (no `""`, `"."` or `".."` components).
`pathlib.Path.resolve()` on a symlink-free tree normalizes `"."`, empty and
`".."` components lexically, clamping `".."` at the filesystem root.
-/

structure PyPath where
  absolute : Bool
  segs : List String
deriving DecidableEq, Repr

/-- One step of lexical normalization, as `Path.resolve` performs it on a
symlink-free tree: `""` and `"."` are dropped, `".."` pops the last
component (doing nothing at the filesystem root). -/
def normStep (acc : List String) (s : String) : List String :=
  if s = "" ∨ s = "." then acc
  else if s = ".." then acc.dropLast
  else acc ++ [s]

def normSegs (l : List String) : List String :=
  l.foldl normStep []

/-- `(docs_dir / path).resolve()`: an absolute `path` overrides the root,
a relative one is appended, and the result is normalized. -/
def resolveJoin (root : List String) (p : PyPath) : List String :=
  normSegs ((if p.absolute then [] else root) ++ p.segs)

/-- `os.path.commonpath` on two absolute POSIX paths: their longest common
component-wise prefix. -/
def commonPath : List String → List String → List String
  | a :: as, b :: bs => if a = b then a :: commonPath as bs else []
  | _, _ => []

inductive PathErr where
  | pathTraversal
  | invalidPath
deriving DecidableEq, Repr

/-- `StorageManager.validate_path` (services/storage_manager.py, 44-66) and
the identical check in `server.read_doc` (server.py, 262-269): resolve
`docs_dir / path`, compare `os.path.commonpath([docs_dir, target])` with the
root, and reject with `PathTraversalError` when they differ.  In this POSIX
model both arguments of `commonpath` are absolute, so the `ValueError`
branch (which would raise `InvalidPathError`) is unreachable.  The function
is pure: it takes no filesystem, modelling that validation reads no file. -/
def validate_path (root : List String) (p : PyPath) : Except PathErr (List String) :=
  let target := resolveJoin root p
  if commonPath root target = root then .ok target else .error .pathTraversal

/-- `str(PosixPath(...))` for an absolute path, as a character list:
a leading slash before every component. -/
def pathChars (segs : List String) : List Char :=
  segs.foldl (fun acc s => acc ++ '/' :: s.toList) []

/-- The path-safety test of `handle_read_resource` (server.py, 73-77):
`str(file_path).startswith(str(DOCS_DIR))` on the resolved path. -/
def readResourceCheck (root target : List String) : Bool :=
  (pathChars root).isPrefixOf (pathChars target)

/-- The path-safety test of `read_doc` (server.py, 264-267), as a boolean:
accept exactly when `os.path.commonpath([DOCS_DIR, target])` equals the
root. -/
def readDocCheck (root target : List String) : Bool :=
  commonPath root target == root

/-- A canonical root: no empty, `"."` or `".."` components. -/
def canonicalRoot (root : List String) : Prop :=
  ∀ s ∈ root, s ≠ "" ∧ s ≠ "." ∧ s ≠ ".."

instance (root : List String) : Decidable (canonicalRoot root) := by
  unfold canonicalRoot; infer_instance

/-! ### Path lemmas -/

theorem normStep_plain (acc : List String) (s : String)
    (h1 : s ≠ "") (h2 : s ≠ ".") (h3 : s ≠ "..") :
    normStep acc s = acc ++ [s] := by
  unfold normStep
  rw [if_neg, if_neg h3]
  rintro (h | h) <;> [exact h1 h; exact h2 h]

theorem foldl_normStep_canonical (root : List String) (h : canonicalRoot root) :
    ∀ acc, root.foldl normStep acc = acc ++ root := by
  induction root with
  | nil => intro acc; simp
  | cons a t ih =>
    intro acc
    have ha := h a (List.mem_cons_self a t)
    have ht : canonicalRoot t := fun s hs => h s (List.mem_cons_of_mem a hs)
    simp only [List.foldl_cons, normStep_plain acc a ha.1 ha.2.1 ha.2.2]
    rw [ih ht (acc ++ [a])]
    simp

theorem normSegs_canonical (root : List String) (h : canonicalRoot root) :
    normSegs root = root := by
  unfold normSegs
  simpa using foldl_normStep_canonical root h []

theorem isPrefixOf_self (a : List String) : a.isPrefixOf a = true := by
  induction a with
  | nil => rfl
  | cons x xs ih => simp [List.isPrefixOf, ih]

theorem commonPath_eq_left_iff (a b : List String) :
    commonPath a b = a ↔ a.isPrefixOf b = true := by
  induction a generalizing b with
  | nil => cases b <;> simp [commonPath, List.isPrefixOf]
  | cons x xs ih =>
    cases b with
    | nil => simp [commonPath, List.isPrefixOf]
    | cons y ys =>
      simp only [commonPath, List.isPrefixOf]
      by_cases hxy : x = y
      · subst hxy
        rw [if_pos rfl]
        simp only [List.cons.injEq, true_and, beq_self_eq_true, Bool.true_and]
        exact ih ys
      · rw [if_neg hxy]
        simp [hxy]

theorem resolveJoin_rel (root : List String) (segs : List String) :
    resolveJoin root ⟨false, segs⟩ = normSegs (root ++ segs) := by
  simp [resolveJoin]

theorem validate_path_error_of_escape (root : List String) (p : PyPath)
    (h : root.isPrefixOf (resolveJoin root p) = false) :
    validate_path root p = .error .pathTraversal := by
  unfold validate_path
  rw [if_neg]
  intro hc
  rw [commonPath_eq_left_iff] at hc
  rw [hc] at h
  exact Bool.true_eq_false.mp h

theorem validate_path_empty (root : List String) (h : canonicalRoot root) :
    validate_path root ⟨false, []⟩ = .ok root := by
  have hx : resolveJoin root ⟨false, []⟩ = root := by
    rw [resolveJoin_rel]
    simpa using normSegs_canonical root h
  simp only [validate_path, hx]
  rw [if_pos]
  rw [commonPath_eq_left_iff]
  exact isPrefixOf_self root

theorem validate_path_dot (root : List String) (h : canonicalRoot root) :
    validate_path root ⟨false, ["."]⟩ = .ok root := by
  have hx : resolveJoin root ⟨false, ["."]⟩ = root := by
    rw [resolveJoin_rel]
    unfold normSegs
    rw [List.foldl_append, foldl_normStep_canonical root h []]
    simp [normStep]
  simp only [validate_path, hx]
  rw [if_pos]
  rw [commonPath_eq_left_iff]
  exact isPrefixOf_self root

/-! ## Filesystem and file reading

The on-disk tree is a finite map from canonical absolute paths to entries;
an entry is a regular file with its permissively-decoded character content,
or a directory.  `Path.exists()` is lookup success.
-/

inductive Entry where
  | file (content : List Char)
  | dir
deriving DecidableEq, Repr

def FS := List (List String × Entry)

def fsLookup (fs : FS) (p : List String) : Option Entry :=
  (fs.find? (fun e => e.1 == p)).map (fun e => e.2)

/-- Effective index of a Python slice bound `i` for a sequence of length
`L`: negative indices count from the end, and bounds are clamped to
`[0, L]`. -/
def clampIdx (L : Nat) (i : Int) : Nat :=
  if i < 0 then min ((L : Int) + i).toNat L else min i.toNat L

/-- Python slicing `l[a:b]`. -/
def pySlice (l : List Char) (a b : Int) : List Char :=
  (l.drop (clampIdx l.length a)).take (clampIdx l.length b - clampIdx l.length a)

inductive ReadErr where
  | docsNotAvailable
  | pathTraversal
  | invalidPath
  | resourceNotFound
  | osIsADirectory
deriving DecidableEq, Repr

def MAX_FILE_CHARS : Int := 10000

/-- `limit = limit or self.config.max_file_chars`
(services/storage_manager.py, 85): Python's falsy coalescing replaces both
`None` and `0` by the configured maximum. -/
def readLimit : Option Int → Int
  | none => MAX_FILE_CHARS
  | some l => if l = 0 then MAX_FILE_CHARS else l

/-- `StorageManager.read_file` (services/storage_manager.py, 68-99):
`require_available()`, replace a falsy `limit` (`None` or `0`) by
`max_file_chars`, validate the path, check existence, read and slice.
A validated path that names a directory passes the existence check and the
subsequent `open` raises an OS-level `IsADirectoryError` that `read_file`
does not catch; that outcome is the distinct `osIsADirectory` result,
which is none of the error kinds the function declares. -/
def read_file (fs : FS) (root : List String) (p : PyPath)
    (offset : Int) (limit : Option Int) : Except ReadErr (List Char × Nat) :=
  if (fsLookup fs root).isNone then .error .docsNotAvailable
  else
    let lim : Int := readLimit limit
    match validate_path root p with
    | .error .pathTraversal => .error .pathTraversal
    | .error .invalidPath => .error .invalidPath
    | .ok target =>
      match fsLookup fs target with
      | none => .error .resourceNotFound
      | some .dir => .error .osIsADirectory
      | some (.file content) =>
        .ok (pySlice content offset (offset + lim), content.length)

/-- The pagination footer of `server.read_doc` (server.py, 289): the
f-string interpolating `offset`, `min(end, total)` and `total` into
newline-newline, a bracketed `Showing characters` range and `total`. -/
def showingFooter (offset shownEnd : Int) (total : Nat) : List Char :=
  "\n\n[... Showing characters ".toList ++ (toString offset).toList
    ++ "-".toList ++ (toString shownEnd).toList
    ++ " of ".toList ++ (toString total).toList ++ " total]".toList

/-- The successful branch of `server.read_doc` (server.py, 274-291), given
the decoded content of the validated, existing regular file: slice, set
`truncated` when `offset + limit < total`, and append the footer when
`offset > 0` or truncated. -/
def read_doc (content : List Char) (offset limit : Int) : List Char :=
  let total := content.length
  let e := offset + limit
  let content_slice := pySlice content offset e
  let truncated := e < (total : Int)
  if offset > 0 ∨ truncated then
    content_slice ++ showingFooter offset (min e (total : Int)) total
  else content_slice

/-! ### Slicing lemmas -/

theorem clampIdx_le (L : Nat) (i : Int) : clampIdx L i ≤ L := by
  unfold clampIdx; split <;> exact min_le_right _ _

theorem pySlice_length (l : List Char) (a b : Int) :
    (pySlice l a b).length
      = clampIdx l.length b - clampIdx l.length a := by
  unfold pySlice
  rw [List.length_take, List.length_drop]
  have ha := clampIdx_le l.length a
  have hb := clampIdx_le l.length b
  exact min_eq_left (by omega)

theorem clampIdx_of_nonneg_le (L : Nat) (i : Int) (h0 : 0 ≤ i) (hL : i ≤ (L : Int)) :
    clampIdx L i = i.toNat := by
  unfold clampIdx
  rw [if_neg (by omega)]
  exact min_eq_left (by omega)

theorem clampIdx_of_nonneg (L : Nat) (i : Int) (h0 : 0 ≤ i) :
    clampIdx L i = min i.toNat L := by
  unfold clampIdx
  rw [if_neg (by omega)]

/-- Slice length in the well-behaved range: for `0 ≤ offset ≤ L` and
`0 < limit`, Python's `content[offset : offset+limit]` has exactly
`min limit (L - offset)` characters. -/
theorem pySlice_length_formula (l : List Char) (offset limit : Int)
    (h0 : 0 ≤ offset) (hL : offset ≤ (l.length : Int)) (hpos : 0 < limit) :
    ((pySlice l offset (offset + limit)).length : Int)
      = min limit ((l.length : Int) - offset) := by
  rw [pySlice_length, clampIdx_of_nonneg_le _ _ h0 hL,
    clampIdx_of_nonneg _ _ (by omega)]
  rcases le_total limit ((l.length : Int) - offset) with hc | hc
  · rw [min_eq_left hc, min_eq_left (a := (offset + limit).toNat) (by omega)]
    omega
  · rw [min_eq_right hc, min_eq_right (b := l.length) (by omega)]
    omega

/-! ## Text and search model

Content is a list of characters.  Case-insensitive comparison models
`str.lower` / `re.IGNORECASE` by ASCII lowercasing of code points, which is
exact on the ASCII texts concerned.
-/

/-- ASCII lowercasing of a code point. -/
def lowN (n : Nat) : Nat := if 65 ≤ n ∧ n ≤ 90 then n + 32 else n

def lowNats (l : List Char) : List Nat := l.map (fun ch => lowN ch.toNat)

/-- Case-insensitive literal match of `q` at position `i` of `c`
(`re.escape(query)` under `re.IGNORECASE`). -/
def matchesAt (c q : List Char) (i : Nat) : Bool :=
  (lowNats q).isPrefixOf (lowNats (c.drop i))

/-- `query.lower() in text.lower()`: the case-insensitive substring test
used for filename matches. -/
def containsCI (hay q : List Char) : Bool :=
  (List.range (hay.length + 1)).any (fun i => matchesAt hay q i)

/-- Python's whitespace class (`\s`, and the set `str.strip` removes);
note that it contains the newline. -/
def isSpaceC (ch : Char) : Bool := ch.isWhitespace

/-- `str.strip()`. -/
def stripL (l : List Char) : List Char :=
  ((l.dropWhile isSpaceC).reverse.dropWhile isSpaceC).reverse

def lineEndAux : List Char → Nat
  | [] => 0
  | ch :: t => if ch = '\n' then 0 else lineEndAux t + 1

/-- First position `k ≥ j` that is the end of a line (`c.length`, or
carries a newline): where `$` can match and how far `.*` can reach. -/
def lineEnd (c : List Char) (j : Nat) : Nat := j + lineEndAux (c.drop j)

def hashAux : List Char → Nat
  | [] => 0
  | ch :: t => if ch = '#' then hashAux t + 1 else 0

/-- Length of the run of `'#'` characters at position `p`. -/
def hashRunAt (c : List Char) (p : Nat) : Nat := hashAux (c.drop p)

/-- `^` of a MULTILINE pattern: position 0 or right after a newline. -/
def lineStartAt (c : List Char) (p : Nat) : Bool :=
  p == 0 || c.getD (p - 1) 'A' == '\n'

/-- One attempt of the heading pattern
`'^(' hashes whitespace any query any ')$'` (the MULTILINE, IGNORECASE
pattern of the heading pass) at position `p`: `some e` when a match `[p,e)`
starts at `p`.  The run of `'#'` must have length 1..6 followed by one
whitespace character (out-of-range access yields the non-space default, as
the pattern then has no character to consume); the first greedy `.*` places
the query match at the largest feasible position `i` reachable without
crossing a newline, and the match extends to the end of the line where the
query match ends. -/
def headingMatchAt (c q : List Char) (p : Nat) : Option Nat :=
  if lineStartAt c p then
    let r := hashRunAt c p
    if 1 ≤ r ∧ r ≤ 6 then
      if isSpaceC (c.getD (p + r) 'A') then
        let lo := p + r + 1
        let hi := lineEnd c lo
        match ((List.range (hi + 1 - lo)).reverse.map (fun k => lo + k)).find?
            (fun i => matchesAt c q i) with
        | some i => some (lineEnd c (i + q.length))
        | none => none
      else none
    else none
  else none

/-- `re.finditer` scanning for the heading pattern: left to right,
non-overlapping, resuming at each match end.  The fuel argument bounds the
number of scan steps; every produced match advances the position. -/
def scanHeadings (c q : List Char) : Nat → Nat → List (Nat × Nat)
  | 0, _ => []
  | fuel + 1, p =>
    if p > c.length then []
    else match headingMatchAt c q p with
      | some e => (p, e) :: scanHeadings c q fuel e
      | none => scanHeadings c q fuel (p + 1)

def findHeadings (c q : List Char) : List (Nat × Nat) :=
  scanHeadings c q (c.length + 1) 0

/-- `re.finditer` for the literal query: the non-overlapping occurrences,
scanning left to right and resuming after each match end (an empty pattern
advances by one, as in Python). -/
def scanBody (c q : List Char) : Nat → Nat → List Nat
  | 0, _ => []
  | fuel + 1, s =>
    if s + q.length > c.length then []
    else if matchesAt c q s then s :: scanBody c q fuel (s + max q.length 1)
    else scanBody c q fuel (s + 1)

def findBody (c q : List Char) : List Nat := scanBody c q (c.length + 1) 0

inductive MCat where
  | heading
  | content
deriving DecidableEq, Repr

/-- One `(position, category, snippet)` tuple of the search code. -/
structure MatchT where
  pos : Nat
  cat : MCat
  snippet : List Char
deriving DecidableEq, Repr

def SNIPPET_LENGTH : Nat := 200

/-- `SearchEngine._extract_heading_matches` (search_engine.py, 56-80):
the tuples and spans of the heading-pattern matches; each snippet is the
match window widened 50 characters each side, clipped to the content and
stripped. -/
def extract_heading_matches (c q : List Char) : List MatchT × List (Nat × Nat) :=
  let spans := findHeadings c q
  (spans.map (fun se =>
    { pos := se.1
      cat := MCat.heading
      snippet := stripL ((c.drop (se.1 - 50)).take (min c.length (se.2 + 50) - (se.1 - 50))) }),
   spans)

/-- `SearchEngine._extract_content_matches` (search_engine.py, 82-114):
every finditer occurrence of the query except those lying fully inside a
recorded heading span, with a window of half the snippet length on each
side, clipped and stripped. -/
def extract_content_matches (c q : List Char) (heading_ranges : List (Nat × Nat)) :
    List MatchT :=
  (findBody c q).filterMap (fun i =>
    if heading_ranges.any (fun hr => decide (hr.1 ≤ i ∧ i + q.length ≤ hr.2)) then none
    else some
      { pos := i
        cat := MCat.content
        snippet := stripL ((c.drop (i - SNIPPET_LENGTH / 2)).take
          (min c.length (i + q.length + SNIPPET_LENGTH / 2) - (i - SNIPPET_LENGTH / 2))) })

structure SearchResult where
  rank : Nat
  path : List Char
  snippet : List Char
deriving DecidableEq, Repr

/-- `SearchEngine._determine_rank` (search_engine.py, 116-131). -/
def determine_rank (filename_match : Bool) (ms : List MatchT) : Nat :=
  if filename_match then 1
  else if ms.any (fun m => m.cat == MCat.heading) then 2
  else 3

/-- `SearchEngine._get_best_snippet` (search_engine.py, 133-151): the
snippet of the stably first match of minimal position (`matches.sort` is
stable, so ties keep list order), or the file head with an ellipsis for a
filename-only match. -/
def get_best_snippet (c : List Char) (ms : List MatchT) : List Char :=
  match ms with
  | [] =>
    if c.length > SNIPPET_LENGTH then c.take SNIPPET_LENGTH ++ "...".toList
    else c
  | m :: rest => (rest.foldl (fun b m2 => if m2.pos < b.pos then m2 else b) m).snippet

/-- One file of the `os.walk` enumeration, in visitation order: its
root-relative path and its content, `none` when reading it raises the
`IOError` / `UnicodeDecodeError` that the loop skips. -/
structure WalkedFile where
  relPath : List Char
  content : Option (List Char)
deriving DecidableEq, Repr

def isSupportedName (name : List Char) : Bool :=
  ".md".toList.isSuffixOf name || ".txt".toList.isSuffixOf name

/-- The per-file body of `SearchEngine.search` (search_engine.py, 186-212):
filename test, heading pass, body pass, rank and snippet. -/
def fileResult (q : List Char) (f : WalkedFile) : Option SearchResult :=
  match f.content with
  | none => none
  | some c =>
    let filename_match := containsCI f.relPath q
    let hm := extract_heading_matches c q
    let content_matches := extract_content_matches c q hm.2
    let all_matches := hm.1 ++ content_matches
    if all_matches.isEmpty && !filename_match then none
    else some { rank := determine_rank filename_match all_matches,
                path := f.relPath,
                snippet := get_best_snippet c all_matches }

/-- Stable insertion: an element is placed after every earlier element of
smaller or equal rank. -/
def insertR (a : SearchResult) : List SearchResult → List SearchResult
  | [] => [a]
  | b :: l => if b.rank < a.rank then b :: insertR a l else a :: b :: l

/-- The stable sort by rank: the semantics of Python's
`results.sort(key=lambda x: x.rank)` (`list.sort` is documented stable, and
the stable sorted permutation is unique). -/
def sortByRank : List SearchResult → List SearchResult
  | [] => []
  | a :: l => insertR a (sortByRank l)

def MAX_SEARCH_RESULTS : Nat := 7

inductive SearchErr where
  | docsNotAvailable
  | emptyQuery
deriving DecidableEq, Repr

/-- `SearchEngine.search` (search_engine.py, 153-217): availability check,
then the `if not query` check (which rejects exactly the empty string),
then one result per supported, readable, matching file in walk order,
stably sorted ascending by rank and truncated to `max_results`. -/
def search (rootExists : Bool) (walk : List WalkedFile) (q : List Char) :
    Except SearchErr (List SearchResult) :=
  if !rootExists then .error .docsNotAvailable
  else if q.isEmpty then .error .emptyQuery
  else .ok ((sortByRank ((walk.filter (fun f => isSupportedName f.relPath)).filterMap
      (fileResult q))).take MAX_SEARCH_RESULTS)

/-! ## Path-safety claims -/

theorem pathChars_shift (l : List String) (acc : List Char) :
    l.foldl (fun acc s => acc ++ '/' :: s.toList) acc = acc ++ pathChars l := by
  induction l generalizing acc with
  | nil => simp [pathChars]
  | cons x xs ih =>
    simp only [List.foldl_cons]
    rw [ih (acc ++ '/' :: x.toList)]
    have : pathChars (x :: xs) = ('/' :: x.toList) ++ pathChars xs := by
      unfold pathChars
      simp only [List.foldl_cons, List.nil_append]
      exact ih ('/' :: x.toList)
    rw [this, List.append_assoc]

theorem pathChars_append (a b : List String) :
    pathChars (a ++ b) = pathChars a ++ pathChars b := by
  unfold pathChars
  rw [List.foldl_append]
  exact pathChars_shift b _

/-- The direction of refinement that does hold between the two path-safety
checks: every resolved path that the `commonpath` rule of `read_doc`
accepts, the string-`startswith` rule of `handle_read_resource` accepts as
well. -/
theorem readDocCheck_le_readResourceCheck (root target : List String)
    (h : readDocCheck root target = true) :
    readResourceCheck root target = true := by
  unfold readDocCheck at h
  have h2 : commonPath root target = root := by simpa using h
  rw [commonPath_eq_left_iff] at h2
  rw [ List.isPrefixOf_iff_prefix] at h2
  obtain ⟨rest, hrest⟩ := h2
  unfold readResourceCheck
  rw [ List.isPrefixOf_iff_prefix, ← hrest, pathChars_append]
  exact ⟨pathChars rest, rfl⟩

/-- C1: every path whose canonical resolution against the document root
escapes the root makes `validate_path` fail with `PathTraversalError`
(`validate_path` is a pure function of the root and the path, so no disk
access is involved in the decision); the paths `""` and `"."` resolve to
the root itself and are returned without error. -/
theorem C1_validate_path_safety (root : List String) (p : PyPath)
    (hroot : canonicalRoot root) :
    (root.isPrefixOf (resolveJoin root p) = false →
      validate_path root p = .error .pathTraversal) ∧
    validate_path root ⟨false, []⟩ = .ok root ∧
    validate_path root ⟨false, ["."]⟩ = .ok root :=
  ⟨fun h => validate_path_error_of_escape root p h,
   validate_path_empty root hroot, validate_path_dot root hroot⟩

/-- Witness for C1: root `/docs`, traversal path `../../etc/passwd`, and
the empty path. -/
theorem C1_witness :
    validate_path ["docs"] ⟨false, ["..", "..", "etc", "passwd"]⟩
        = .error .pathTraversal ∧
    validate_path ["docs"] ⟨false, []⟩ = .ok ["docs"] ∧
    validate_path ["docs"] ⟨false, ["."]⟩ = .ok ["docs"] := by
  have h := C1_validate_path_safety ["docs"]
    ⟨false, ["..", "..", "etc", "passwd"]⟩ (by decide)
  exact ⟨h.1 (by decide), h.2.1, h.2.2⟩

/-- C2: the path-safety rules of `handle_read_resource` and `read_doc`
disagree.  With root `/docs`, the URI `../docs2/secret.md` resolves to
`/docs2/secret.md`; the string-`startswith` check of `handle_read_resource`
accepts it, although the `commonpath` check used by `read_doc` rejects it —
contradicting the code's own `ensure path is within DOCS_DIR` comment for a
sibling directory whose name merely extends the root's name.  On a path
inside the root both checks agree. -/
theorem C2_check_divergence :
    readResourceCheck ["docs"]
        (resolveJoin ["docs"] ⟨false, ["..", "docs2", "secret.md"]⟩) = true ∧
    readDocCheck ["docs"]
        (resolveJoin ["docs"] ⟨false, ["..", "docs2", "secret.md"]⟩) = false ∧
    readResourceCheck ["docs"]
        (resolveJoin ["docs"] ⟨false, ["a.md"]⟩) = true ∧
    readDocCheck ["docs"]
        (resolveJoin ["docs"] ⟨false, ["a.md"]⟩) = true := by
  decide

/-! ## File-reading claims -/

theorem read_file_ok (fs : FS) (root : List String) (p : PyPath)
    (target : List String) (c : List Char) (offset : Int) (limit : Option Int)
    (h1 : (fsLookup fs root).isNone = false)
    (h2 : validate_path root p = .ok target)
    (h3 : fsLookup fs target = some (Entry.file c)) :
    read_file fs root p offset limit
      = .ok (pySlice c offset (offset + readLimit limit), c.length) := by
  unfold read_file
  rw [h1, h2]
  simp [h3]

/-- C10: a validated path naming an existing directory (for example `""` or
`"."`, which resolve to the document root) makes `read_file` pass the
existence check and hit the uncaught OS-level `IsADirectoryError` from
`open`; no declared error kind (`ResourceNotFoundError` in particular) is
raised. -/
theorem C10_read_file_directory (fs : FS) (root : List String) (p : PyPath)
    (target : List String) (offset : Int) (limit : Option Int)
    (h1 : (fsLookup fs root).isNone = false)
    (h2 : validate_path root p = .ok target)
    (h3 : fsLookup fs target = some Entry.dir) :
    read_file fs root p offset limit = .error .osIsADirectory ∧
    ∀ e : ReadErr, e ≠ .osIsADirectory →
      read_file fs root p offset limit ≠ .error e := by
  have hmain : read_file fs root p offset limit = .error .osIsADirectory := by
    unfold read_file
    rw [h1, h2]
    simp [h3]
  refine ⟨hmain, fun e he hc => he ?_⟩
  rw [hmain] at hc
  exact (Except.error.injEq _ _).mp hc.symm

/-- Witness for C10: the empty path resolves to the root directory itself
and `read_file` ends in the OS-level `IsADirectoryError` outcome. -/
theorem C10_witness :
    read_file [(["docs"], Entry.dir)] ["docs"] ⟨false, []⟩ 0 none
      = .error .osIsADirectory :=
  (C10_read_file_directory [(["docs"], Entry.dir)] ["docs"] ⟨false, []⟩
    ["docs"] 0 none (by rfl) (by rfl) (by rfl)).1

/-- C3 as stated fails at `limit = 0`: `read_file` replaces the falsy limit
by the 10,000-character default, so a two-character file read with
`offset = 0, limit = 0` returns both characters, not
`max(0, min(limit, L - offset)) = 0` of them. -/
theorem C3_counterexample :
    read_file [(["docs"], Entry.dir), (["docs", "a.md"], Entry.file ['a', 'b'])]
        ["docs"] ⟨false, ["a.md"]⟩ 0 (some 0)
      = .ok (['a', 'b'], 2) ∧
    ¬ ((['a', 'b'] : List Char).length : Int) = max 0 (min 0 ((2 : Int) - 0)) := by
  exact ⟨by rfl, by decide⟩

/-- C3 (amended): for every existing file of length `L`, every offset with
`0 ≤ offset ≤ L` and every positive caller-supplied limit, `read_file`
returns the Python slice of exactly `min limit (L - offset)` characters
(the claimed `max(0, min(limit, L - offset))`, which is non-negative here),
and the returned total equals `L` regardless of offset and limit.  A limit
of `0` is falsy and falls back to the default instead. -/
theorem C3_read_file_pagination (fs : FS) (root : List String) (p : PyPath)
    (target : List String) (c : List Char) (offset limit : Int)
    (h1 : (fsLookup fs root).isNone = false)
    (h2 : validate_path root p = .ok target)
    (h3 : fsLookup fs target = some (Entry.file c))
    (h4 : 0 ≤ offset) (h5 : offset ≤ (c.length : Int)) (h6 : 0 < limit) :
    read_file fs root p offset (some limit)
        = .ok (pySlice c offset (offset + limit), c.length) ∧
    ((pySlice c offset (offset + limit)).length : Int)
        = min limit ((c.length : Int) - offset) ∧
    ∀ (o : Int) (l : Option Int), ∃ slice,
      read_file fs root p o l = .ok (slice, c.length) := by
  have hlim : readLimit (some limit) = limit := by
    simp only [readLimit]
    rw [if_neg (by omega)]
  refine ⟨?_, pySlice_length_formula c offset limit h4 h5 h6, ?_⟩
  · rw [read_file_ok fs root p target c offset (some limit) h1 h2 h3, hlim]
  · intro o l
    exact ⟨_, read_file_ok fs root p target c o l h1 h2 h3⟩

/-- Witness for C3 (amended): a three-character file read with
`offset = 1, limit = 1` yields the one-character slice and total 3. -/
theorem C3_witness :
    read_file [(["docs"], Entry.dir), (["docs", "a.md"], Entry.file ['a', 'b', 'c'])]
        ["docs"] ⟨false, ["a.md"]⟩ 1 (some 1)
      = .ok (pySlice ['a', 'b', 'c'] 1 (1 + 1), 3) ∧
    ((pySlice ['a', 'b', 'c'] 1 (1 + 1)).length : Int) = min 1 ((3 : Int) - 1) := by
  have h := C3_read_file_pagination
    [(["docs"], Entry.dir), (["docs", "a.md"], Entry.file ['a', 'b', 'c'])]
    ["docs"] ⟨false, ["a.md"]⟩ ["docs", "a.md"] ['a', 'b', 'c'] 1 1
    (by rfl) (by rfl) (by rfl) (by decide) (by decide) (by decide)
  exact ⟨h.1, h.2.1⟩

/-- C9: an explicit `limit` of `0` is falsy in `limit or max_file_chars`,
so `read_file` behaves exactly as with no limit: the 10,000-character
default applies, and the slice is non-empty whenever the offset lies
strictly inside the file. -/
theorem C9_zero_limit_default (fs : FS) (root : List String) (p : PyPath)
    (offset : Int) :
    read_file fs root p offset (some 0) = read_file fs root p offset none ∧
    ∀ (target : List String) (c : List Char),
      (fsLookup fs root).isNone = false →
      validate_path root p = .ok target →
      fsLookup fs target = some (Entry.file c) →
      0 ≤ offset → offset < (c.length : Int) →
      read_file fs root p offset (some 0)
          = .ok (pySlice c offset (offset + 10000), c.length) ∧
      pySlice c offset (offset + 10000) ≠ [] := by
  constructor
  · rfl
  · intro target c h1 h2 h3 h4 h5
    have hok := read_file_ok fs root p target c offset (some 0) h1 h2 h3
    have hlim : readLimit (some 0) = 10000 := rfl
    rw [hlim] at hok
    refine ⟨hok, ?_⟩
    have hf := pySlice_length_formula c offset 10000 h4 (by omega) (by omega)
    intro hnil
    rw [hnil] at hf
    simp only [List.length_nil, Int.natCast_zero] at hf
    rcases le_total (10000 : Int) ((c.length : Int) - offset) with h | h
    · rw [min_eq_left h] at hf
      omega
    · rw [min_eq_right h] at hf
      omega

/-- Witness for C9: on a one-character file, `limit = 0` equals the
no-limit call and returns the character. -/
theorem C9_witness :
    read_file [(["docs"], Entry.dir), (["docs", "a.md"], Entry.file ['z'])]
        ["docs"] ⟨false, ["a.md"]⟩ 0 (some 0)
      = read_file [(["docs"], Entry.dir), (["docs", "a.md"], Entry.file ['z'])]
        ["docs"] ⟨false, ["a.md"]⟩ 0 none ∧
    pySlice ['z'] 0 (0 + 10000) ≠ [] := by
  have h := C9_zero_limit_default
    [(["docs"], Entry.dir), (["docs", "a.md"], Entry.file ['z'])]
    ["docs"] ⟨false, ["a.md"]⟩ 0
  exact ⟨h.1, (h.2 ["docs", "a.md"] ['z'] (by rfl) (by rfl) (by rfl)
    (by decide) (by decide)).2⟩

theorem showingFooter_ne_nil (o e : Int) (t : Nat) : showingFooter o e t ≠ [] := by
  have h2 : (showingFooter o e t).take 2 = ['\n', '\n'] := rfl
  intro h
  rw [h] at h2
  simp at h2

/-- C8 as stated fails on a degenerate input: reading an empty file with
`offset = 0` and `limit = -1` appends the footer although the offset is
zero and the returned (empty) slice spans the whole file up to its end. -/
theorem C8_counterexample :
    read_doc [] 0 (-1) ≠ pySlice [] 0 (0 + -1) ∧
    ¬ (0 : Int) > 0 ∧
    ¬ clampIdx ([] : List Char).length (0 + -1) < ([] : List Char).length := by
  refine ⟨?_, by decide, by decide⟩
  decide

/-- C8 (amended): for every file and every non-negative offset and limit,
`read_doc` appends the `Showing characters` footer exactly when
`offset > 0` or the returned slice stops short of the end of the file
(its clamped end index is below the length); in particular reading the
entire file with `offset = 0` and `limit ≥ L` never appends it.  With a
negative limit on an empty file the footer appears even though the slice
spans the whole file. -/
theorem C8_read_doc_footer (c : List Char) (offset limit : Int)
    (h0 : 0 ≤ offset) (h1 : 0 ≤ limit) :
    (read_doc c offset limit ≠ pySlice c offset (offset + limit) ↔
      0 < offset ∨ clampIdx c.length (offset + limit) < c.length) ∧
    ((0 < offset ∨ clampIdx c.length (offset + limit) < c.length) →
      read_doc c offset limit
        = pySlice c offset (offset + limit)
          ++ showingFooter offset (min (offset + limit) (c.length : Int)) c.length) ∧
    (offset = 0 → (c.length : Int) ≤ limit →
      read_doc c offset limit = pySlice c offset (offset + limit)) := by
  have hiff : (offset > 0 ∨ offset + limit < (c.length : Int)) ↔
      (0 < offset ∨ clampIdx c.length (offset + limit) < c.length) := by
    rw [clampIdx_of_nonneg _ _ (by omega)]
    constructor
    · rintro (h | h)
      · exact Or.inl h
      · refine Or.inr ?_
        have hx : (offset + limit).toNat < c.length := by omega
        rw [min_eq_left (le_of_lt hx)]
        exact hx
    · rintro (h | h)
      · exact Or.inl h
      · refine Or.inr ?_
        rcases le_total ((offset + limit).toNat) c.length with hm | hm
        · rw [min_eq_left hm] at h
          omega
        · rw [min_eq_right hm] at h
          omega
  by_cases hc : offset > 0 ∨ offset + limit < (c.length : Int)
  · have hout : read_doc c offset limit
        = pySlice c offset (offset + limit)
          ++ showingFooter offset (min (offset + limit) (c.length : Int)) c.length := by
      simp only [read_doc]
      rw [if_pos hc]
    refine ⟨?_, fun _ => hout, ?_⟩
    · rw [hout]
      constructor
      · intro _
        exact hiff.mp hc
      · intro _ hcontra
        have hlen := congrArg List.length hcontra
        rw [List.length_append] at hlen
        have hfp : 0 < (showingFooter offset
            (min (offset + limit) (c.length : Int)) c.length).length :=
          List.length_pos.mpr (showingFooter_ne_nil _ _ _)
        omega
    · intro ho hl
      exfalso
      rcases hc with h | h
      · omega
      · omega
  · have hout : read_doc c offset limit = pySlice c offset (offset + limit) := by
      simp only [read_doc]
      rw [if_neg hc]
    refine ⟨?_, ?_, fun _ _ => hout⟩
    · rw [hout]
      simp only [ne_eq, not_true_eq_false, false_iff]
      intro hcontra
      exact hc (hiff.mpr hcontra)
    · intro hcontra
      exact absurd (hiff.mpr hcontra) hc

/-- Witness for C8: a three-character file with `offset = 0, limit = 2`
gets the footer, and with `offset = 0, limit = 5` it does not. -/
theorem C8_witness :
    read_doc ['a', 'b', 'c'] 0 2 = "ab\n\n[... Showing characters 0-2 of 3 total]".toList ∧
    read_doc ['a', 'b', 'c'] 0 5 = pySlice ['a', 'b', 'c'] 0 (0 + 5) := by
  constructor
  · have h := C8_read_doc_footer ['a', 'b', 'c'] 0 2 (by decide) (by decide)
    refine (h.2.1 (by decide)).trans ?_
    decide
  · have h := C8_read_doc_footer ['a', 'b', 'c'] 0 5 (by decide) (by decide)
    exact h.2.2 rfl (by decide)

/-! ## Search claims: stable sort lemmas -/

theorem mem_insertR (a x : SearchResult) (l : List SearchResult) :
    x ∈ insertR a l ↔ x = a ∨ x ∈ l := by
  induction l with
  | nil => simp [insertR]
  | cons b t ih =>
    simp only [insertR]
    split
    · simp only [List.mem_cons, ih]
      tauto
    · simp only [List.mem_cons]

theorem pairwise_insertR (a : SearchResult) (l : List SearchResult)
    (h : l.Pairwise (fun x y => x.rank ≤ y.rank)) :
    (insertR a l).Pairwise (fun x y => x.rank ≤ y.rank) := by
  induction l with
  | nil => simp [insertR]
  | cons b t ih =>
    rcases List.pairwise_cons.mp h with ⟨hb, ht⟩
    simp only [insertR]
    split
    · rename_i hba
      refine List.pairwise_cons.mpr ⟨?_, ih ht⟩
      intro x hx
      rcases (mem_insertR a x t).mp hx with rfl | hxt
      · exact le_of_lt hba
      · exact hb x hxt
    · rename_i hba
      refine List.pairwise_cons.mpr ⟨?_, h⟩
      intro x hx
      rcases List.mem_cons.mp hx with rfl | hxt
      · omega
      · exact le_trans (by omega) (hb x hxt)

theorem sortByRank_pairwise (l : List SearchResult) :
    (sortByRank l).Pairwise (fun x y => x.rank ≤ y.rank) := by
  induction l with
  | nil => simp [sortByRank]
  | cons a t ih => exact pairwise_insertR a (sortByRank t) ih

theorem filter_insertR (a : SearchResult) (l : List SearchResult)
    (p : SearchResult → Bool)
    (hp : ∀ b : SearchResult, b.rank < a.rank → p a = true → p b = false) :
    (insertR a l).filter p = if p a then a :: l.filter p else l.filter p := by
  induction l with
  | nil => simp only [insertR, List.filter_cons, List.filter_nil]
  | cons b t ih =>
    simp only [insertR]
    by_cases hba : b.rank < a.rank
    · rw [if_pos hba, List.filter_cons, ih]
      cases hpa : p a with
      | true =>
        have hpb : p b = false := hp b hba hpa
        simp [hpa, hpb, List.filter_cons]
      | false =>
        simp only [List.filter_cons, hpa]
        cases hpb : p b <;> simp
    · rw [if_neg hba]
      simp only [List.filter_cons]

theorem sortByRank_filter_rank (l : List SearchResult) (k : Nat) :
    (sortByRank l).filter (fun r => r.rank == k)
      = l.filter (fun r => r.rank == k) := by
  induction l with
  | nil => rfl
  | cons a t ih =>
    have hp : ∀ b : SearchResult, b.rank < a.rank →
        (a.rank == k) = true → (b.rank == k) = false := by
      intro b hb hak
      simp only [beq_iff_eq] at hak
      rw [beq_eq_false_iff_ne]
      omega
    simp only [sortByRank]
    rw [filter_insertR a (sortByRank t) _ hp, ih, List.filter_cons]

theorem mem_sortByRank (x : SearchResult) (l : List SearchResult) :
    x ∈ sortByRank l ↔ x ∈ l := by
  induction l with
  | nil => simp [sortByRank]
  | cons a t ih => simp [sortByRank, mem_insertR, ih]

/-! ## Search claims: ranking -/

/-- The unsorted result list of a search: one candidate result per
supported, readable file, in walk order. -/
def searchPre (walk : List WalkedFile) (q : List Char) : List SearchResult :=
  (walk.filter (fun f => isSupportedName f.relPath)).filterMap (fileResult q)

theorem search_ok (walk : List WalkedFile) (q : List Char)
    (hq : q.isEmpty = false) :
    search true walk q
      = .ok ((sortByRank (searchPre walk q)).take MAX_SEARCH_RESULTS) := by
  unfold search searchPre
  simp [hq]

theorem determine_rank_eq_one_iff (fm : Bool) (ms : List MatchT) :
    determine_rank fm ms = 1 ↔ fm = true := by
  unfold determine_rank
  cases fm
  · simp only [Bool.false_eq_true, if_false]
    split <;> simp
  · simp

theorem fileResult_spec (q : List Char) (f : WalkedFile) (r : SearchResult)
    (h : fileResult q f = some r) :
    r.path = f.relPath ∧ (r.rank = 1 ↔ containsCI f.relPath q = true) := by
  unfold fileResult at h
  cases hc : f.content with
  | none =>
    rw [hc] at h
    cases h
  | some c =>
    rw [hc] at h
    simp only at h
    split at h
    · cases h
    · injection h with h
      subst h
      exact ⟨rfl, determine_rank_eq_one_iff _ _⟩

/-- C4: every result list of `search` is sorted ascending by rank (so no
rank-3 result precedes a rank-1 or rank-2 result), the results of any
fixed rank form a sublist of the rank-equal results in original per-file
visitation order, at most `max_results = 7` results are returned, and a
result has rank 1 exactly when the query is a case-insensitive substring
of its root-relative path. -/
theorem C4_search_ranking (walk : List WalkedFile) (q : List Char)
    (out : List SearchResult)
    (h : search true walk q = .ok out) :
    out.Pairwise (fun x y => x.rank ≤ y.rank) ∧
    out.length ≤ MAX_SEARCH_RESULTS ∧
    (∀ k : Nat, (out.filter (fun r => r.rank == k)).Sublist
      ((searchPre walk q).filter (fun r => r.rank == k))) ∧
    ∀ r ∈ out, (r.rank = 1 ↔ containsCI r.path q = true) := by
  have hq : q.isEmpty = false := by
    cases hq' : q.isEmpty
    · rfl
    · unfold search at h
      rw [hq'] at h
      simp at h
  rw [search_ok walk q hq] at h
  injection h with h
  subst h
  refine ⟨?_, ?_, ?_, ?_⟩
  · exact List.Pairwise.sublist (List.take_sublist _ _) (sortByRank_pairwise _)
  · exact List.length_take_le _ _
  · intro k
    have hs := List.Sublist.filter (fun r => r.rank == k)
      (List.take_sublist MAX_SEARCH_RESULTS (sortByRank (searchPre walk q)))
    rw [sortByRank_filter_rank] at hs
    exact hs
  · intro r hr
    have hr2 : r ∈ sortByRank (searchPre walk q) := List.mem_of_mem_take hr
    have hr3 : r ∈ searchPre walk q := (mem_sortByRank r _).mp hr2
    unfold searchPre at hr3
    rcases List.mem_filterMap.mp hr3 with ⟨f, _, hfr⟩
    rcases fileResult_spec q f r hfr with ⟨hpath, hiff⟩
    rw [hpath]
    exact hiff

def walkEx : List WalkedFile :=
  [⟨"notes.txt".toList, some "alpha beta".toList⟩,
   ⟨"beta.md".toList, some "gamma".toList⟩]

/-- Witness for C4 on a concrete walk: a rank-1 filename match sorts before
a rank-3 body match, and the rank-1 result is exactly the one whose path
contains the query. -/
theorem C4_witness :
    ([⟨1, "beta.md".toList, "gamma".toList⟩,
      ⟨3, "notes.txt".toList, "alpha beta".toList⟩]
        : List SearchResult).Pairwise (fun x y => x.rank ≤ y.rank) ∧
    ([⟨1, "beta.md".toList, "gamma".toList⟩,
      ⟨3, "notes.txt".toList, "alpha beta".toList⟩]
        : List SearchResult).length ≤ MAX_SEARCH_RESULTS ∧
    (∀ k : Nat, (([⟨1, "beta.md".toList, "gamma".toList⟩,
      ⟨3, "notes.txt".toList, "alpha beta".toList⟩]
        : List SearchResult).filter (fun r => r.rank == k)).Sublist
      ((searchPre walkEx "beta".toList).filter (fun r => r.rank == k))) ∧
    ∀ r ∈ ([⟨1, "beta.md".toList, "gamma".toList⟩,
      ⟨3, "notes.txt".toList, "alpha beta".toList⟩] : List SearchResult),
      (r.rank = 1 ↔ containsCI r.path "beta".toList = true) :=
  C4_search_ranking walkEx "beta".toList
    [⟨1, "beta.md".toList, "gamma".toList⟩,
     ⟨3, "notes.txt".toList, "alpha beta".toList⟩] (by rfl)

/-- C5 as stated fails for blank queries: `if not query` rejects only the
empty string, so the one-space query is not rejected, the walk proceeds,
and the file content is read and matched (here the space inside the file
produces a rank-3 result). -/
theorem C5_counterexample :
    search true [⟨"a.md".toList, some "x y".toList⟩] [' ']
        = .ok [⟨3, "a.md".toList, "x y".toList⟩] ∧
    search true [⟨"a.md".toList, some "x y".toList⟩] [' ']
        ≠ .error .emptyQuery := by
  refine ⟨by rfl, fun hh => ?_⟩
  rw [show search true [⟨"a.md".toList, some "x y".toList⟩] [' ']
      = .ok [⟨3, "a.md".toList, "x y".toList⟩] from rfl] at hh
  cases hh

/-- C5 (amended): when the documentation root exists, `search` fails with
`SearchQueryEmptyError` for the empty query, and in that case touches no
file: the outcome is the same constant error for every file tree, so no
directory walk or file read can influence it.  Blank but non-empty
(whitespace-only) queries are not rejected. -/
theorem C5_empty_query (walk : List WalkedFile) :
    search true walk [] = .error .emptyQuery := rfl

/-! ## Search claims: heading and body pass lemmas -/

theorem getD_drop (c : List Char) (j m : Nat) (d : Char) :
    (c.drop j).getD m d = c.getD (j + m) d := by
  rw [List.getD_eq_getElem?_getD, List.getD_eq_getElem?_getD, List.getElem?_drop]

theorem lineEndAux_le (l : List Char) : lineEndAux l ≤ l.length := by
  induction l with
  | nil => simp [lineEndAux]
  | cons ch t ih =>
    simp only [lineEndAux, List.length_cons]
    split
    · omega
    · omega

theorem lineEndAux_spec (l : List Char) :
    ∀ k, k < lineEndAux l → l.getD k 'A' ≠ '\n' := by
  induction l with
  | nil => simp [lineEndAux]
  | cons ch t ih =>
    intro k hk
    simp only [lineEndAux] at hk
    split at hk
    · omega
    · rename_i hch
      cases k with
      | zero => simpa using hch
      | succ k =>
        simp only [List.getD_cons_succ]
        exact ih k (by omega)

theorem le_lineEnd (c : List Char) (j : Nat) : j ≤ lineEnd c j :=
  Nat.le_add_right _ _

theorem lineEnd_le (c : List Char) (j : Nat) (h : j ≤ c.length) :
    lineEnd c j ≤ c.length := by
  unfold lineEnd
  have := lineEndAux_le (c.drop j)
  rw [List.length_drop] at this
  omega

theorem lineEnd_spec (c : List Char) (j k : Nat) (h1 : j ≤ k)
    (h2 : k < lineEnd c j) : c.getD k 'A' ≠ '\n' := by
  have hx := lineEndAux_spec (c.drop j) (k - j) (by unfold lineEnd at h2; omega)
  rw [getD_drop] at hx
  rw [show j + (k - j) = k from by omega] at hx
  exact hx

theorem hashAux_spec (l : List Char) :
    ∀ k, k < hashAux l → l.getD k 'A' = '#' := by
  induction l with
  | nil => simp [hashAux]
  | cons ch t ih =>
    intro k hk
    simp only [hashAux] at hk
    split at hk
    · rename_i hch
      cases k with
      | zero => simpa using hch
      | succ k =>
        simp only [List.getD_cons_succ]
        exact ih k (by omega)
    · omega

theorem hashRun_spec (c : List Char) (p k : Nat) (h : k < hashRunAt c p) :
    c.getD (p + k) 'A' = '#' := by
  have hx := hashAux_spec (c.drop p) k (by unfold hashRunAt at h; exact h)
  rw [getD_drop] at hx
  exact hx

theorem lowN_eq_ten (n : Nat) : lowN n = 10 ↔ n = 10 := by
  unfold lowN
  split <;> omega

theorem char_toNat_inj (a b : Char) (h : a.toNat = b.toNat) : a = b :=
  Char.ext (UInt32.ext_iff.mpr h)

theorem matchesAt_le (c q : List Char) (i : Nat) (hq : q ≠ [])
    (hm : matchesAt c q i = true) : i + q.length ≤ c.length := by
  unfold matchesAt at hm
  rw [ List.isPrefixOf_iff_prefix] at hm
  have hlen := hm.length_le
  simp only [lowNats, List.length_map, List.length_drop] at hlen
  have hq1 : 1 ≤ q.length := List.length_pos.mpr hq
  omega

theorem matchesAt_point (c q : List Char) (i : Nat)
    (hm : matchesAt c q i = true) :
    ∀ j, j < q.length →
      lowN ((c.getD (i + j) 'A').toNat) = lowN ((q.getD j 'A').toNat) := by
  intro j hj
  unfold matchesAt at hm
  rw [ List.isPrefixOf_iff_prefix] at hm
  rcases hm with ⟨t, ht⟩
  have hlen : q.length ≤ c.length - i := by
    have hl := congrArg List.length ht
    simp only [List.length_append, lowNats, List.length_map, List.length_drop] at hl
    omega
  have hij : i + j < c.length := by omega
  have h1 : (lowNats (c.drop i))[j]? = some (lowN ((c.getD (i + j) 'A').toNat)) := by
    rw [lowNats, List.getElem?_map, List.getElem?_drop,
      List.getElem?_eq_getElem hij, List.getD_eq_getElem?_getD,
      List.getElem?_eq_getElem hij]
    rfl
  have h2 : (lowNats (c.drop i))[j]? = some (lowN ((q.getD j 'A').toNat)) := by
    rw [← ht, List.getElem?_append_left (by simpa [lowNats] using hj),
      lowNats, List.getElem?_map, List.getElem?_eq_getElem hj,
      List.getD_eq_getElem?_getD, List.getElem?_eq_getElem hj]
    rfl
  rw [h1] at h2
  exact Option.some.inj h2

theorem matchesAt_no_newline (c q : List Char) (i : Nat)
    (hm : matchesAt c q i = true) (hq : '\n' ∉ q) :
    ∀ j, i ≤ j → j < i + q.length → c.getD j 'A' ≠ '\n' := by
  intro j hj1 hj2 hcontra
  have hp := matchesAt_point c q i hm (j - i) (by omega)
  rw [show i + (j - i) = j from by omega, hcontra] at hp
  have hqd : q.getD (j - i) 'A' ∈ q := by
    rw [List.getD_eq_getElem?_getD, List.getElem?_eq_getElem (by omega : j - i < q.length)]
    exact List.getElem_mem _
  have hne : q.getD (j - i) 'A' ≠ '\n' := fun he => hq (he ▸ hqd)
  have h10 : ('\n').toNat = 10 := by decide
  rw [h10] at hp
  have : lowN 10 = 10 := by decide
  rw [this] at hp
  have := (lowN_eq_ten _).mp hp.symm
  exact hne (char_toNat_inj _ _ (by rw [this, h10]))

theorem mem_scanBody (c q : List Char) (fuel : Nat) :
    ∀ s i, i ∈ scanBody c q fuel s → matchesAt c q i = true ∧ s ≤ i := by
  induction fuel with
  | zero =>
    intro s i h
    cases h
  | succ fuel ih =>
    intro s i h
    simp only [scanBody] at h
    split at h
    · cases h
    · split at h
      · rcases List.mem_cons.mp h with rfl | h2
        · rename_i hms
          exact ⟨hms, le_refl _⟩
        · rcases ih _ _ h2 with ⟨hm, hs⟩
          exact ⟨hm, by omega⟩
      · rcases ih _ _ h with ⟨hm, hs⟩
        exact ⟨hm, by omega⟩

theorem scanBody_complete (c q : List Char) (hq : q ≠ []) (fuel : Nat) :
    ∀ s i, s ≤ i → c.length + 1 ≤ fuel + s → matchesAt c q i = true →
      i ∈ scanBody c q fuel s ∨
      ∃ p ∈ scanBody c q fuel s, p < i ∧ i < p + q.length := by
  have hq1 : 1 ≤ q.length := List.length_pos.mpr hq
  induction fuel with
  | zero =>
    intro s i hsi hfuel hm
    exfalso
    have hlen := matchesAt_le c q i hq hm
    omega
  | succ fuel ih =>
    intro s i hsi hfuel hm
    have hlen := matchesAt_le c q i hq hm
    simp only [scanBody]
    split
    · rename_i hbig
      exfalso
      omega
    · split
      · rename_i hms
        rcases Nat.lt_or_ge i (s + q.length) with hlt | hge
        · rcases Nat.eq_or_lt_of_le hsi with rfl | hlt2
          · exact Or.inl (List.mem_cons_self _ _)
          · exact Or.inr ⟨s, List.mem_cons_self _ _, hlt2, hlt⟩
        · have hqm : max q.length 1 = q.length := by omega
          rcases ih (s + max q.length 1) i (by omega) (by omega) hm
            with h1 | ⟨p, hp, hpi⟩
          · exact Or.inl (List.mem_cons_of_mem _ h1)
          · exact Or.inr ⟨p, List.mem_cons_of_mem _ hp, hpi⟩
      · rename_i hms
        have hsi' : s + 1 ≤ i := by
          rcases Nat.eq_or_lt_of_le hsi with rfl | h
          · exact absurd hm hms
          · omega
        exact ih (s + 1) i hsi' (by omega) hm

/-- C6 as stated fails on overlapping occurrences: in content `aaa` the
query `aa` occurs at positions 0 and 1 and there is no heading span, yet
the body pass reports only the occurrence at 0, because `re.finditer`
scans non-overlapping matches. -/
theorem C6_counterexample :
    matchesAt ['a', 'a', 'a'] ['a', 'a'] 1 = true ∧
    (extract_heading_matches ['a', 'a', 'a'] ['a', 'a']).2 = [] ∧
    ∀ m ∈ extract_content_matches ['a', 'a', 'a'] ['a', 'a']
        (extract_heading_matches ['a', 'a', 'a'] ['a', 'a']).2,
      m.pos ≠ 1 := by
  decide

/-- C6 (amended): the body pass reports exactly those occurrences found by
the left-to-right non-overlapping finditer scan whose span does not lie
fully inside a recorded heading span.  Soundness: every reported match is a
true case-insensitive occurrence, of body category, outside every heading
span.  Completeness: every occurrence anywhere in the content is fully
inside some heading span, or reported, or overlaps an earlier occurrence
kept by the non-overlapping scan. -/
theorem C6_body_pass (c q : List Char) (hq : q ≠ []) :
    (∀ m ∈ extract_content_matches c q (extract_heading_matches c q).2,
      matchesAt c q m.pos = true ∧ m.cat = MCat.content ∧
      ¬ ∃ hr ∈ (extract_heading_matches c q).2,
        hr.1 ≤ m.pos ∧ m.pos + q.length ≤ hr.2) ∧
    (∀ i, matchesAt c q i = true →
      (∃ hr ∈ (extract_heading_matches c q).2,
        hr.1 ≤ i ∧ i + q.length ≤ hr.2) ∨
      (∃ m ∈ extract_content_matches c q (extract_heading_matches c q).2,
        m.pos = i) ∨
      (∃ p ∈ findBody c q, p < i ∧ i < p + q.length)) := by
  constructor
  · intro m hm
    rcases List.mem_filterMap.mp hm with ⟨i, hi, hopt⟩
    split at hopt
    · cases hopt
    · rename_i hcond
      injection hopt with hopt
      subst hopt
      refine ⟨(mem_scanBody c q _ 0 i hi).1, rfl, ?_⟩
      rintro ⟨hr, hhr, hsp1, hsp2⟩
      exact hcond (List.any_eq_true.mpr
        ⟨hr, hhr, by rw [decide_eq_true_eq]; exact ⟨hsp1, hsp2⟩⟩)
  · intro i him
    by_cases hin : ∃ hr ∈ (extract_heading_matches c q).2,
        hr.1 ≤ i ∧ i + q.length ≤ hr.2
    · exact Or.inl hin
    · rcases scanBody_complete c q hq (c.length + 1) 0 i (by omega) (by omega) him
        with hmem | ⟨p, hp, hpi⟩
      · refine Or.inr (Or.inl ?_)
        have hany : (extract_heading_matches c q).2.any
            (fun hr => decide (hr.1 ≤ i ∧ i + q.length ≤ hr.2)) = false := by
          cases hab : (extract_heading_matches c q).2.any
              (fun hr => decide (hr.1 ≤ i ∧ i + q.length ≤ hr.2)) with
          | false => rfl
          | true =>
            rcases List.any_eq_true.mp hab with ⟨hr, hhr, hd⟩
            rw [decide_eq_true_eq] at hd
            exact absurd ⟨hr, hhr, hd⟩ hin
        exact ⟨_, List.mem_filterMap.mpr
          ⟨i, hmem, by
            rw [if_neg (by simp only [hany]; exact Bool.false_ne_true)]⟩, rfl⟩
      · exact Or.inr (Or.inr ⟨p, hp, hpi⟩)

/-- Witness for C6 on concrete content with a heading: the occurrence
inside the heading span is excluded, the two body occurrences are
reported. -/
theorem C6_witness :
    (∀ m ∈ extract_content_matches "# abc\nabc".toList "abc".toList
        (extract_heading_matches "# abc\nabc".toList "abc".toList).2,
      matchesAt "# abc\nabc".toList "abc".toList m.pos = true ∧
      m.cat = MCat.content ∧
      ¬ ∃ hr ∈ (extract_heading_matches "# abc\nabc".toList "abc".toList).2,
        hr.1 ≤ m.pos ∧ m.pos + "abc".toList.length ≤ hr.2) ∧
    (∀ i, matchesAt "# abc\nabc".toList "abc".toList i = true →
      (∃ hr ∈ (extract_heading_matches "# abc\nabc".toList "abc".toList).2,
        hr.1 ≤ i ∧ i + "abc".toList.length ≤ hr.2) ∨
      (∃ m ∈ extract_content_matches "# abc\nabc".toList "abc".toList
        (extract_heading_matches "# abc\nabc".toList "abc".toList).2,
        m.pos = i) ∨
      (∃ p ∈ findBody "# abc\nabc".toList "abc".toList,
        p < i ∧ i < p + "abc".toList.length)) :=
  C6_body_pass "# abc\nabc".toList "abc".toList (by decide)

theorem mem_scanHeadings (c q : List Char) (fuel : Nat) :
    ∀ s pe, pe ∈ scanHeadings c q fuel s →
      headingMatchAt c q pe.1 = some pe.2 := by
  induction fuel with
  | zero =>
    intro s pe h
    cases h
  | succ fuel ih =>
    intro s pe h
    simp only [scanHeadings] at h
    split at h
    · cases h
    · split at h
      · rename_i e heq
        rcases List.mem_cons.mp h with rfl | h2
        · exact heq
        · exact ih _ _ h2
      · exact ih _ _ h

theorem headingMatchAt_inv (c q : List Char) (p e : Nat)
    (h : headingMatchAt c q p = some e) :
    lineStartAt c p = true ∧
    1 ≤ hashRunAt c p ∧ hashRunAt c p ≤ 6 ∧
    isSpaceC (c.getD (p + hashRunAt c p) 'A') = true ∧
    ∃ i, p + hashRunAt c p + 1 ≤ i ∧
      i ≤ lineEnd c (p + hashRunAt c p + 1) ∧
      matchesAt c q i = true ∧ e = lineEnd c (i + q.length) := by
  simp only [headingMatchAt] at h
  split at h
  case isFalse => cases h
  case isTrue hls =>
    split at h
    case isFalse => cases h
    case isTrue hr =>
      split at h
      case isFalse => cases h
      case isTrue hsp =>
        split at h
        case h_2 => cases h
        case h_1 i heq =>
          injection h with h
          refine ⟨hls, hr.1, hr.2, hsp, i, ?_, ?_, List.find?_some heq, h.symm⟩
          · have hmem := List.mem_of_find?_eq_some heq
            rcases List.mem_map.mp hmem with ⟨k, hk, rfl⟩
            omega
          · have hmem := List.mem_of_find?_eq_some heq
            rcases List.mem_map.mp hmem with ⟨k, hk, rfl⟩
            rw [List.mem_reverse, List.mem_range] at hk
            omega

/-- C7 as stated fails when the whitespace after the hashes is itself a
newline: on content `#` newline `q` with query `q`, the heading pass
produces the single match spanning the whole two-line text, which is not a
single line and whose query occurrence is not on the `#` line. -/
theorem C7_counterexample :
    findHeadings "#\nq".toList "q".toList = [(0, 3)] ∧
    ("#\nq".toList).getD 1 'A' = '\n' := by
  decide

/-- C7 (amended): every match of the heading pass starts at a line start
with a run of 1-6 `#` characters followed by one whitespace character (the
`\s` class includes the newline); the query occurs case-insensitively at
some position after that whitespace, reachable without crossing a newline,
and the match extends exactly to the end of the line in which the query
match ends.  Whenever that whitespace character is not a newline (and the
query contains none), the whole match lies on a single line.  Each
reported snippet is the match window expanded 50 characters before the
start and 50 after the end, clipped to the content and trimmed. -/
theorem C7_heading_pass (c q : List Char) (hq : '\n' ∉ q) :
    (∀ pe ∈ findHeadings c q,
      lineStartAt c pe.1 = true ∧
      1 ≤ hashRunAt c pe.1 ∧ hashRunAt c pe.1 ≤ 6 ∧
      isSpaceC (c.getD (pe.1 + hashRunAt c pe.1) 'A') = true ∧
      (∃ i, pe.1 + hashRunAt c pe.1 + 1 ≤ i ∧
        i ≤ lineEnd c (pe.1 + hashRunAt c pe.1 + 1) ∧
        matchesAt c q i = true ∧ pe.2 = lineEnd c (i + q.length)) ∧
      (c.getD (pe.1 + hashRunAt c pe.1) 'A' ≠ '\n' →
        ∀ j, pe.1 ≤ j → j < pe.2 → c.getD j 'A' ≠ '\n')) ∧
    (extract_heading_matches c q).1 = (findHeadings c q).map (fun se =>
      { pos := se.1
        cat := MCat.heading
        snippet := stripL ((c.drop (se.1 - 50)).take
          (min c.length (se.2 + 50) - (se.1 - 50))) }) := by
  refine ⟨?_, rfl⟩
  intro pe hpe
  have hh := mem_scanHeadings c q (c.length + 1) 0 pe hpe
  obtain ⟨hls, hr1, hr6, hsp, i, hi1, hi2, him, hee⟩ :=
    headingMatchAt_inv c q pe.1 pe.2 hh
  refine ⟨hls, hr1, hr6, hsp, ⟨i, hi1, hi2, him, hee⟩, ?_⟩
  intro hw j hj1 hj2
  rw [hee] at hj2
  rcases Nat.lt_or_ge j (pe.1 + hashRunAt c pe.1) with hj | hj
  · have hhash := hashRun_spec c pe.1 (j - pe.1) (by omega)
    rw [show pe.1 + (j - pe.1) = j from by omega] at hhash
    rw [hhash]
    decide
  · rcases Nat.eq_or_lt_of_le hj with hj' | hj'
    · rw [← hj']
      exact hw
    · rcases Nat.lt_or_ge j i with hji | hji
      · exact lineEnd_spec c (pe.1 + hashRunAt c pe.1 + 1) j (by omega) (by omega)
      · rcases Nat.lt_or_ge j (i + q.length) with hjq | hjq
        · exact matchesAt_no_newline c q i him hq j hji hjq
        · exact lineEnd_spec c (i + q.length) j hjq hj2

/-- Witness for C7: the heading `## a` produces the single match `(0, 4)`
with the claimed structure. -/
theorem C7_witness :
    lineStartAt "## a".toList 0 = true ∧
    1 ≤ hashRunAt "## a".toList 0 ∧ hashRunAt "## a".toList 0 ≤ 6 ∧
    isSpaceC (("## a".toList).getD (0 + hashRunAt "## a".toList 0) 'A') = true ∧
    (∃ i, 0 + hashRunAt "## a".toList 0 + 1 ≤ i ∧
      i ≤ lineEnd "## a".toList (0 + hashRunAt "## a".toList 0 + 1) ∧
      matchesAt "## a".toList "a".toList i = true ∧
      (4 : Nat) = lineEnd "## a".toList (i + "a".toList.length)) ∧
    (("## a".toList).getD (0 + hashRunAt "## a".toList 0) 'A' ≠ '\n' →
      ∀ j, 0 ≤ j → j < 4 → ("## a".toList).getD j 'A' ≠ '\n') :=
  (C7_heading_pass "## a".toList "a".toList (by decide)).1 (0, 4) (by decide)
